import Mathlib

/-
Verification development for the wpca repository's EM-PCA engine
(`src/wpca/empca.py`).

Matrices are embedded as functions `Fin n → Fin d → ℝ` (Mathlib `Matrix`);
numpy's float arithmetic is modelled by exact real arithmetic.  Rows of the
basis live in `EuclideanSpace ℝ (Fin d)` so that orthonormality is the
standard inner-product notion.  The file `wpca/utils.py` (imported by
`empca.py` for `orthonormalize`, `random_orthonormal`, `solve_weighted`) is
not part of the sources; those three functions are modelled from the spec
(sections 4.1-4.3) and are marked as such in their doc comments.

The dynamic-shape wrapper layer at the end models the module-level `empca`
function's `assert` statements and the `EMPCA.fit_transform` attribute
assignment order over plain (rational) list-of-list inputs, where shape
mismatches are expressible.
-/

open scoped Matrix

namespace Wpca

noncomputable section

instance (k : ℕ) : WellFoundedLT (Fin k) := inferInstance

/-- Rows of the basis: vectors of `ℝ^d` with the Euclidean inner product. -/
abbrev RVec (d : ℕ) : Type := EuclideanSpace ℝ (Fin d)

/-- The k×d matrix whose rows are the given basis vectors (the ndarray
`eigvec` of the source, viewed as a `Matrix`). -/
def evMat {k d : ℕ} (ev : Fin k → RVec d) : Matrix (Fin k) (Fin d) ℝ :=
  Matrix.of fun t j => ev t j

/-- The `w2` multiplier of `_Mstep`: `weights ** 2` entrywise, or the scalar
`1` when `weights is None` — the scalar broadcasts over every entry, so it is
embedded as the all-ones matrix (`empca.py` lines 24-27). -/
def w2Of {n d : ℕ} (weights : Option (Matrix (Fin n) (Fin d) ℝ)) :
    Matrix (Fin n) (Fin d) ℝ :=
  match weights with
  | none => Matrix.of fun _ _ => 1
  | some W => Matrix.of fun s j => W s j ^ 2

/-- Modelled from the spec: `solve_weighted` of the missing `wpca/utils.py`
(spec section 4.3).  Given the design matrix `A` (the source passes
`eigvec.T`, d×k), one observation `b` and one weight vector `w`, build the
weighted normal equations `(Aᵀ diag(w²) A) c = Aᵀ diag(w²) b` and solve them.
Degenerate-case policy (documented, per 4.3): a singular normal-equations
matrix has Mathlib inverse `0`, so the returned coefficient vector is zero. -/
def solve_weighted {d k : ℕ} (A : Matrix (Fin d) (Fin k) ℝ)
    (b : Fin d → ℝ) (w : Fin d → ℝ) : Fin k → ℝ :=
  (Aᵀ * Matrix.of fun j t => w j ^ 2 * A j t)⁻¹.mulVec
    (Aᵀ.mulVec fun j => w j ^ 2 * b j)

/-- E-step (`EMPCA._Estep`, lines 14-20): `np.dot(data, eigvec.T)` when
unweighted, otherwise one `solve_weighted(eigvec.T, data[i], weights[i])`
per sample. -/
def _Estep {n d k : ℕ} (data : Matrix (Fin n) (Fin d) ℝ)
    (weights : Option (Matrix (Fin n) (Fin d) ℝ)) (eigvec : Fin k → RVec d) :
    Matrix (Fin n) (Fin k) ℝ :=
  match weights with
  | none => data * (evMat eigvec)ᵀ
  | some W => Matrix.of fun i t =>
      solve_weighted (evMat eigvec)ᵀ (fun j => data i j) (fun j => W i j) t

/-- The deflated residual `d = data - np.dot(coeff[:, :i], eigvec[:i])`
(`empca.py` line 30): the sliced product sums over column indices `t < i`. -/
def deflate {n d k : ℕ} (data : Matrix (Fin n) (Fin d) ℝ)
    (coeff : Matrix (Fin n) (Fin k) ℝ) (ev : Fin k → RVec d) (i : Fin k) :
    Matrix (Fin n) (Fin d) ℝ :=
  Matrix.of fun s j =>
    data s j - ∑ t : Fin (i : ℕ),
      coeff s (Fin.castLE i.isLt.le t) * ev (Fin.castLE i.isLt.le t) j

/-- The column slice `c = coeff[:, i:i+1]` (`empca.py` line 31), an n×1
matrix. -/
def colMat {n k : ℕ} (coeff : Matrix (Fin n) (Fin k) ℝ) (i : Fin k) :
    Matrix (Fin n) (Fin 1) ℝ :=
  Matrix.of fun s _ => coeff s i

/-- The row assigned by the M-step (`empca.py` line 32):
`eigvec[i] = np.dot(c.T, w2 * d) / np.dot(c.T, w2 * c)`.
`w2 * d` and `w2 * c` are numpy broadcasts (elementwise products, the n×1
column `c` broadcast over features), and the final division is the
elementwise division of two 1×d arrays, broadcast over features. -/
def mstepRow {n d k : ℕ} (data : Matrix (Fin n) (Fin d) ℝ)
    (weights : Option (Matrix (Fin n) (Fin d) ℝ))
    (coeff : Matrix (Fin n) (Fin k) ℝ) (ev : Fin k → RVec d) (i : Fin k) :
    RVec d :=
  fun j =>
    ((colMat coeff i)ᵀ *
        Matrix.of fun s j' => w2Of weights s j' * deflate data coeff ev i s j') 0 j
      / ((colMat coeff i)ᵀ *
          Matrix.of fun s j' => w2Of weights s j' * colMat coeff i s 0) 0 j

/-- Modelled from the spec: `orthonormalize` of the missing `wpca/utils.py`
(spec section 4.2) — ordered Gram-Schmidt: row `t` is made orthogonal to rows
`0..t-1` and normalized.  The source applies it to the prefix slice
`eigvec[:m]`; since Gram-Schmidt output at row `t` only reads input rows
`0..t`, applying Mathlib's `gramSchmidtNormed` to the full family and keeping
rows `≥ m` untouched is the same operation.  Degenerate-case policy
(documented, per 4.2): a row whose residual is zero normalizes to the zero
vector. -/
def orthoUpTo {k d : ℕ} (ev : Fin k → RVec d) (m : ℕ) : Fin k → RVec d :=
  fun t => if (t : ℕ) < m then gramSchmidtNormed ℝ ev t else ev t

/-- State of the in-place M-step loop (`empca.py` lines 28-36) after the
first `i` iterations: row `i-1` was assigned `mstepRow` (reading the rows
`0..i-2` already updated in this pass) and then the prefix `eigvec[:i]` was
re-orthonormalized. -/
def mstepGo {n d k : ℕ} (data : Matrix (Fin n) (Fin d) ℝ)
    (weights : Option (Matrix (Fin n) (Fin d) ℝ)) (eigvec : Fin k → RVec d)
    (coeff : Matrix (Fin n) (Fin k) ℝ) : ℕ → (Fin k → RVec d)
  | 0 => eigvec
  | i + 1 =>
    if h : i < k then
      orthoUpTo
        (Function.update (mstepGo data weights eigvec coeff i) ⟨i, h⟩
          (mstepRow data weights coeff (mstepGo data weights eigvec coeff i) ⟨i, h⟩))
        (i + 1)
    else mstepGo data weights eigvec coeff i

/-- M-step (`EMPCA._Mstep`, lines 22-37; identical formulas in the
module-level `_Mstep`, lines 176-189): run the row-update loop over all `k`
rows. -/
def _Mstep {n d k : ℕ} (data : Matrix (Fin n) (Fin d) ℝ)
    (weights : Option (Matrix (Fin n) (Fin d) ℝ)) (eigvec : Fin k → RVec d)
    (coeff : Matrix (Fin n) (Fin k) ℝ) : Fin k → RVec d :=
  mstepGo data weights eigvec coeff k

/-- Modelled from the spec: `random_orthonormal` of the missing
`wpca/utils.py` (spec section 4.1).  The spec fixes only the contract: a k×d
matrix with orthonormal rows, reproducible for a fixed seed (the pseudorandom
draw itself is unspecified).  It is modelled as the deterministic orthonormal
family of the first `k` standard basis rows — a fixed function of the seed,
so the same seed always yields the same initial basis. -/
def random_orthonormal (k d : ℕ) (_seed : ℕ) : Fin k → RVec d :=
  fun t => (fun j => if (t : ℕ) = (j : ℕ) then 1 else 0 : RVec d)

/-- The per-feature mean `self.mean_` (`empca.py` lines 56-62): column means
of `X` when unweighted; otherwise `XW = X * weights`, the in-place NaN guard
`XW[weights == 0] = 0`, then `XW.sum(0) / weights.sum(0)`. -/
def fitMean {n d : ℕ} (X : Matrix (Fin n) (Fin d) ℝ)
    (weights : Option (Matrix (Fin n) (Fin d) ℝ)) : Fin d → ℝ :=
  match weights with
  | none => fun j => (∑ i, X i j) / n
  | some W =>
    let XW := Matrix.of fun i j => X i j * W i j
    let XWz := Matrix.of fun i j => if W i j = 0 then 0 else XW i j
    fun j => (∑ i, XWz i j) / (∑ i, W i j)

/-- The centered data `X_c = X - self.mean_` (`empca.py` line 64). -/
def centered {n d : ℕ} (X : Matrix (Fin n) (Fin d) ℝ)
    (weights : Option (Matrix (Fin n) (Fin d) ℝ)) : Matrix (Fin n) (Fin d) ℝ :=
  Matrix.of fun i j => X i j - fitMean X weights j

/-- One loop body of the EM iteration (`empca.py` lines 70-72):
`coeff = _Estep(...)` then `eigvec = _Mstep(...)`; the basis is the only
state carried from one pass to the next. -/
def emStep {n d k : ℕ} (data : Matrix (Fin n) (Fin d) ℝ)
    (weights : Option (Matrix (Fin n) (Fin d) ℝ)) :
    (Fin k → RVec d) → (Fin k → RVec d) :=
  fun ev => _Mstep data weights ev (_Estep data weights ev)

/-- The basis after `t` full E-step/M-step cycles, as an explicit recurrence
(used to characterize the iteration schedule). -/
def emSeq {n d k : ℕ} (data : Matrix (Fin n) (Fin d) ℝ)
    (weights : Option (Matrix (Fin n) (Fin d) ℝ)) (ev0 : Fin k → RVec d) :
    ℕ → (Fin k → RVec d)
  | 0 => ev0
  | t + 1 =>
    _Mstep data weights (emSeq data weights ev0 t)
      (_Estep data weights (emSeq data weights ev0 t))

/-- Population variance `np.var(M, 0)` at column `j`: mean squared deviation from the column
mean (population variance, as numpy computes it). -/
def npVarCol {n d : ℕ} (M : Matrix (Fin n) (Fin d) ℝ) (j : Fin d) : ℝ :=
  (∑ i, (M i j - (∑ s, M s j) / n) ^ 2) / n

/-- The attributes produced by `EMPCA.fit_transform` together with its
return value (the final coefficients). -/
structure FitResult (n d k : ℕ) where
  mean_ : Fin d → ℝ
  components_ : Fin k → RVec d
  coeff : Matrix (Fin n) (Fin k) ℝ
  explained_variance_ : Fin k → ℝ
  explained_variance_ratio_ : Fin k → ℝ

/-- The method `EMPCA.fit_transform` (`empca.py` lines 39-80): weighted (or plain) mean,
centering, random orthonormal initialization, `max_iter` E/M cycles, one
final E-step, then the variance statistics
`explained_variance_ = diag(coeffᵀ coeff)/n_samples` and
`explained_variance_ratio_ = explained_variance_ / X_c.var(0).sum()`. -/
def fit_transform {n d : ℕ} (X : Matrix (Fin n) (Fin d) ℝ)
    (weights : Option (Matrix (Fin n) (Fin d) ℝ)) (k maxIter seed : ℕ) :
    FitResult n d k :=
  let mean := fitMean X weights
  let Xc := centered X weights
  let ev0 := random_orthonormal k d seed
  let evN := (emStep Xc weights)^[maxIter] ev0
  let coeff := _Estep Xc weights evN
  { mean_ := mean
    components_ := evN
    coeff := coeff
    explained_variance_ := fun l => Matrix.diag (coeffᵀ * coeff) l / n
    explained_variance_ratio_ := fun l =>
      Matrix.diag (coeffᵀ * coeff) l / n / ∑ j, npVarCol Xc j }

/-- The method `EMPCA.transform` (`empca.py` line 123): one E-step of `X - self.mean_`
against the frozen basis. -/
def transform {n d k : ℕ} (X : Matrix (Fin n) (Fin d) ℝ)
    (weights : Option (Matrix (Fin n) (Fin d) ℝ)) (mean_ : Fin d → ℝ)
    (components_ : Fin k → RVec d) : Matrix (Fin n) (Fin k) ℝ :=
  _Estep (Matrix.of fun i j => X i j - mean_ j) weights components_

/-- The method `EMPCA.inverse_transform` (`empca.py` line 139):
`self.mean_ + np.dot(X, self.components_)`. -/
def inverse_transform {n d k : ℕ} (Y : Matrix (Fin n) (Fin k) ℝ)
    (mean_ : Fin d → ℝ) (components_ : Fin k → RVec d) :
    Matrix (Fin n) (Fin d) ℝ :=
  Matrix.of fun i j => mean_ j + (Y * evMat components_) i j

/-- The method `EMPCA.reconstruct` (`empca.py` line 160): `inverse_transform ∘
transform`. -/
def reconstruct {n d k : ℕ} (X : Matrix (Fin n) (Fin d) ℝ)
    (weights : Option (Matrix (Fin n) (Fin d) ℝ)) (mean_ : Fin d → ℝ)
    (components_ : Fin k → RVec d) : Matrix (Fin n) (Fin d) ℝ :=
  inverse_transform (transform X weights mean_ components_) mean_ components_

/-- The module-level `empca` engine (`empca.py` lines 192-220) after its two
`assert`s: random init, `niter` E/M cycles (the E-step overwrites every row
of `coeff`, so the zero initialization of `coeff` carries no state), one
final E-step, returning `(eigvec, coeff)`.  The asserts themselves are
modelled in the dynamic-shape layer below. -/
def empca {n d : ℕ} (data : Matrix (Fin n) (Fin d) ℝ)
    (weights : Matrix (Fin n) (Fin d) ℝ) (nvec niter seed : ℕ) :
    (Fin nvec → RVec d) × Matrix (Fin n) (Fin nvec) ℝ :=
  let ev0 := random_orthonormal nvec d seed
  let evN := (emStep data (some weights))^[niter] ev0
  (evN, _Estep data (some weights) evN)

/-- The basis state of the M-step just before its final re-orthonormalization
pass: every row except the last carries the value it has after its own
update-and-reorthonormalize step, and the last row has just been assigned
`mstepRow`.  The full M-step output is exactly the Gram-Schmidt
orthonormalization of this family. -/
def mstepPenult {n d k : ℕ} (data : Matrix (Fin n) (Fin d) ℝ)
    (weights : Option (Matrix (Fin n) (Fin d) ℝ))
    (eigvec : Fin (k + 1) → RVec d) (coeff : Matrix (Fin n) (Fin (k + 1)) ℝ) :
    Fin (k + 1) → RVec d :=
  Function.update (mstepGo data weights eigvec coeff k) (Fin.last k)
    (mstepRow data weights coeff (mstepGo data weights eigvec coeff k)
      (Fin.last k))

/-- Concrete 1×1 data matrix with entry 1 (degenerate M-step input). -/
def cexData : Matrix (Fin 1) (Fin 1) ℝ := Matrix.of fun _ _ => 1

/-- Concrete 1×1 data matrix with entry 2. -/
def cexData2 : Matrix (Fin 1) (Fin 1) ℝ := Matrix.of fun _ _ => 2

/-- Concrete one-row basis: the single vector `(1)` of `ℝ^1`. -/
def cexEv : Fin 1 → RVec 1 := fun _ => (fun _ => 1 : RVec 1)

/-- Concrete 1×1 coefficient matrix with entry 1. -/
def cexCoeffOne : Matrix (Fin 1) (Fin 1) ℝ := Matrix.of fun _ _ => 1

/-- Concrete 2×3 data matrix whose centered rows do not lie in the span of
the first two standard basis vectors (they point along the third feature). -/
def c8X : Matrix (Fin 2) (Fin 3) ℝ := !![0, 0, 0; 0, 0, 2]

/-- Concrete 2×2 data matrix. -/
def c10X : Matrix (Fin 2) (Fin 2) ℝ := !![1, 5; 2, 3]

/-- Matrix `c10X` with its single zero-weight entry (row 0, column 1) replaced by a
different (arbitrary) value. -/
def c10Xp : Matrix (Fin 2) (Fin 2) ℝ := !![1, 7; 2, 3]

/-- Concrete 2×2 weight matrix with exactly one zero entry, at (0, 1). -/
def c10W : Matrix (Fin 2) (Fin 2) ℝ := !![1, 0; 2, 1]

/-- Failure values of the validation layer: the module-level `empca`'s two
`assert`s (`empca.py` lines 209-210), and the spec's DimensionError for a
component count exceeding the feature count (spec sections 4.1 and 7). -/
inductive EmpcaError where
  | shapeMismatch
  | dimensionError

/-- The ndarray shape `(n_samples, n_features)` of a list-of-rows matrix. -/
def shape2 (M : List (List ℚ)) : ℕ × ℕ := (M.length, (M.headD []).length)

/-- Read a list-of-rows matrix into a typed real matrix of the given shape. -/
def toMatrixQ (M : List (List ℚ)) (n d : ℕ) : Matrix (Fin n) (Fin d) ℝ :=
  Matrix.of fun i j => ((M.getD i []).getD j 0 : ℚ)

/-- Write a typed real matrix back to a list of rows. -/
def ofMatrixR {n k : ℕ} (M : Matrix (Fin n) (Fin k) ℝ) : List (List ℝ) :=
  (List.finRange n).map fun i => (List.finRange k).map fun t => M i t

/-- The module-level `empca` function over dynamically-shaped inputs
(`empca.py` lines 192-220): `assert data.shape == weights.shape`, then
`assert nvec <= data.shape[1]`, and only then the EM iteration.  The asserts
are evaluated before any basis or coefficient state exists, so a failed
assert returns an error with no partial state and without consulting
`niter`. -/
def empcaChecked (data weights : List (List ℚ)) (nvec niter seed : ℕ) :
    Except EmpcaError (List (List ℝ) × List (List ℝ)) :=
  if shape2 data ≠ shape2 weights then .error .shapeMismatch
  else if ¬ nvec ≤ (shape2 data).2 then .error .dimensionError
  else
    .ok
      (ofMatrixR (evMat (empca (toMatrixQ data (shape2 data).1 (shape2 data).2)
          (toMatrixQ weights (shape2 data).1 (shape2 data).2) nvec niter seed).1),
        ofMatrixR (empca (toMatrixQ data (shape2 data).1 (shape2 data).2)
          (toMatrixQ weights (shape2 data).1 (shape2 data).2) nvec niter seed).2)

/-- Column means `X.mean(0)` of a dynamically-shaped matrix, as a list. -/
def meanColsQ (X : List (List ℚ)) : List ℝ :=
  (List.range (shape2 X).2).map fun j =>
    (X.map fun r => ((r.getD j 0 : ℚ) : ℝ)).sum / X.length

/-- The method `EMPCA.fit_transform` with `weights=None` over dynamically-shaped input,
recording the attribute-assignment order of the source: `self.mean_` is
assigned (`empca.py` line 57) before `random_orthonormal(self.n_components,
X.shape[1])` runs (line 66), and the initializer's hard precondition
`k ≤ n_features` (spec section 4.1, DimensionError) is only checked there.
The first component records the `mean_` attribute present on the estimator
when the call returns or fails; the second is the call's outcome. -/
def fitTransformTraced (X : List (List ℚ)) (k maxIter seed : ℕ) :
    Option (List ℝ) × Except EmpcaError (List (List ℝ)) :=
  if k ≤ (shape2 X).2 then
    (some (meanColsQ X),
      .ok (ofMatrixR
        (fit_transform (toMatrixQ X (shape2 X).1 (shape2 X).2) none
          k maxIter seed).coeff))
  else (some (meanColsQ X), .error .dimensionError)

/-- A sum over the slice indices `t < i` of `Fin k`, written with
`Fin.castLE`, equals the same sum written as a filtered sum over all of
`Fin k`. -/
theorem sum_fin_slice {k : ℕ} (i : Fin k) (F : Fin k → ℝ) :
    (∑ t : Fin (i : ℕ), F (Fin.castLE i.isLt.le t))
      = ∑ t ∈ Finset.univ.filter (fun t : Fin k => (t : ℕ) < (i : ℕ)), F t := by
  classical
  have hik : (i : ℕ) ≤ k := i.isLt.le
  set f : ℕ → ℝ := fun m => if h : m < k then
      (if m < (i : ℕ) then F ⟨m, h⟩ else 0) else 0 with hf
  have hL : (∑ t : Fin (i : ℕ), F (Fin.castLE i.isLt.le t))
      = ∑ m ∈ Finset.range (i : ℕ), f m := by
    rw [← Fin.sum_univ_eq_sum_range]
    refine Finset.sum_congr rfl fun t _ => ?_
    have h1 : (t : ℕ) < k := lt_of_lt_of_le t.isLt hik
    simp only [hf, dif_pos h1, if_pos t.isLt]
    rfl
  have hR : (∑ t ∈ Finset.univ.filter (fun t : Fin k => (t : ℕ) < (i : ℕ)), F t)
      = ∑ m ∈ Finset.range k, f m := by
    rw [Finset.sum_filter, ← Fin.sum_univ_eq_sum_range]
    refine Finset.sum_congr rfl fun t _ => ?_
    simp only [hf, dif_pos t.isLt, Fin.eta]
  have hsub : ∑ m ∈ Finset.range (i : ℕ), f m = ∑ m ∈ Finset.range k, f m := by
    refine Finset.sum_subset (Finset.range_subset.mpr hik) fun m _ hm => ?_
    have : ¬ m < (i : ℕ) := by simpa using hm
    simp [hf, this]
  rw [hL, hsub, hR]

/-- Claim C1: in every M-step, row `i` (taken in order) is recomputed from
the deflated residual `d = data - coeff[:, :i] · eigvec[:i]` built from the
rows `0..i-1` already updated in this pass, as
`(coeff[:,i]ᵀ (w² ⊙ d)) / (coeff[:,i]ᵀ (w² ⊙ coeff[:,i]))`, with the
division broadcast over the `d` features; `w²` is the elementwise squared
weight matrix, or all ones when weights are absent. -/
theorem C1_mstep_row_update {n d k : ℕ} (data : Matrix (Fin n) (Fin d) ℝ)
    (weights : Option (Matrix (Fin n) (Fin d) ℝ))
    (coeff : Matrix (Fin n) (Fin k) ℝ) (ev0 : Fin k → RVec d) (i : Fin k) :
    mstepGo data weights ev0 coeff ((i : ℕ) + 1)
        = orthoUpTo
            (Function.update (mstepGo data weights ev0 coeff i) i
              (mstepRow data weights coeff (mstepGo data weights ev0 coeff i) i))
            ((i : ℕ) + 1)
      ∧ (∀ j : Fin d,
          mstepRow data weights coeff (mstepGo data weights ev0 coeff i) i j
            = (∑ s, coeff s i * (w2Of weights s j *
                  (data s j -
                    ∑ t ∈ Finset.univ.filter (fun t : Fin k => (t : ℕ) < (i : ℕ)),
                      coeff s t * mstepGo data weights ev0 coeff i t j)))
                / (∑ s, coeff s i * (w2Of weights s j * coeff s i)))
      ∧ w2Of (none : Option (Matrix (Fin n) (Fin d) ℝ)) = Matrix.of (fun _ _ => 1)
      ∧ (∀ W : Matrix (Fin n) (Fin d) ℝ,
          w2Of (some W) = Matrix.of fun s j => W s j ^ 2) := by
  refine ⟨?_, ?_, rfl, fun W => rfl⟩
  · rw [mstepGo]
    rw [dif_pos i.isLt]
  · intro j
    simp only [mstepRow]
    rw [Matrix.mul_apply, Matrix.mul_apply]
    congr 1
    · refine Finset.sum_congr rfl fun s _ => ?_
      simp only [Matrix.transpose_apply, colMat, Matrix.of_apply, deflate]
      congr 2
      rw [sum_fin_slice i (fun t => coeff s t * mstepGo data weights ev0 coeff i t j)]

/-- The `for`-loop iterate of `emStep` agrees with the explicit recurrence
`emSeq`. -/
theorem iterate_emStep_eq_emSeq {n d k : ℕ} (data : Matrix (Fin n) (Fin d) ℝ)
    (weights : Option (Matrix (Fin n) (Fin d) ℝ)) (ev0 : Fin k → RVec d)
    (t : ℕ) : (emStep data weights)^[t] ev0 = emSeq data weights ev0 t := by
  induction t with
  | zero => rfl
  | succ t ih => rw [Function.iterate_succ_apply', ih]; rfl

/-- Claim C4: a fit performs exactly the configured number of E/M cycles
(`max_iter` for the class, `niter` for the module-level `empca`), with no
convergence test (the result is a function of the iteration count alone),
followed by exactly one final E-step, so the returned coefficients are the
E-step output for the final basis.  `emSeq` is the cycle recurrence:
`emSeq 0` is the random initial basis and `emSeq (t+1)` applies one E-step
then one M-step to `emSeq t`. -/
theorem C4_fixed_iteration_schedule {n d n2 d2 : ℕ}
    (X : Matrix (Fin n) (Fin d) ℝ)
    (weights : Option (Matrix (Fin n) (Fin d) ℝ)) (k maxIter seed : ℕ)
    (data : Matrix (Fin n2) (Fin d2) ℝ) (W : Matrix (Fin n2) (Fin d2) ℝ)
    (nvec niter seed2 : ℕ) :
    ((fit_transform X weights k maxIter seed).components_
        = emSeq (centered X weights) weights (random_orthonormal k d seed) maxIter
      ∧ (fit_transform X weights k maxIter seed).coeff
        = _Estep (centered X weights) weights
            (emSeq (centered X weights) weights (random_orthonormal k d seed) maxIter))
    ∧ ((empca data W nvec niter seed2).1
        = emSeq data (some W) (random_orthonormal nvec d2 seed2) niter
      ∧ (empca data W nvec niter seed2).2
        = _Estep data (some W)
            (emSeq data (some W) (random_orthonormal nvec d2 seed2) niter))
    ∧ (∀ (t : ℕ) (ev : Fin k → RVec d) (dat : Matrix (Fin n) (Fin d) ℝ)
         (w : Option (Matrix (Fin n) (Fin d) ℝ)),
        emSeq dat w ev 0 = ev
        ∧ emSeq dat w ev (t + 1)
            = _Mstep dat w (emSeq dat w ev t) (_Estep dat w (emSeq dat w ev t))) := by
  refine ⟨⟨?_, ?_⟩, ⟨?_, ?_⟩, fun t ev dat w => ⟨rfl, rfl⟩⟩
  · show (emStep (centered X weights) weights)^[maxIter]
        (random_orthonormal k d seed) = _
    exact iterate_emStep_eq_emSeq _ _ _ _
  · show _Estep (centered X weights) weights
        ((emStep (centered X weights) weights)^[maxIter]
          (random_orthonormal k d seed)) = _
    rw [iterate_emStep_eq_emSeq]
  · show (emStep data (some W))^[niter] (random_orthonormal nvec d2 seed2) = _
    exact iterate_emStep_eq_emSeq _ _ _ _
  · show _Estep data (some W)
        ((emStep data (some W))^[niter] (random_orthonormal nvec d2 seed2)) = _
    rw [iterate_emStep_eq_emSeq]

/-- Claim C7: at the end of every fit, `explained_variance_` is the diagonal
of `coeffᵀ coeff` divided by the number of samples, and
`explained_variance_ratio_` is that vector divided by the total per-feature
variance of the centered data summed over the features. -/
theorem C7_explained_variance_formulas {n d : ℕ} (X : Matrix (Fin n) (Fin d) ℝ)
    (weights : Option (Matrix (Fin n) (Fin d) ℝ)) (k maxIter seed : ℕ)
    (l : Fin k) :
    (fit_transform X weights k maxIter seed).explained_variance_ l
        = (∑ i, (fit_transform X weights k maxIter seed).coeff i l ^ 2) / n
    ∧ (fit_transform X weights k maxIter seed).explained_variance_ratio_ l
        = (fit_transform X weights k maxIter seed).explained_variance_ l
            / ∑ j, npVarCol (centered X weights) j
    ∧ (∀ j, npVarCol (centered X weights) j
        = (∑ i, (centered X weights i j
            - (∑ s, centered X weights s j) / n) ^ 2) / n) := by
  refine ⟨?_, rfl, fun j => rfl⟩
  show Matrix.diag ((fit_transform X weights k maxIter seed).coeffᵀ
      * (fit_transform X weights k maxIter seed).coeff) l / (n : ℝ) = _
  generalize (fit_transform X weights k maxIter seed).coeff = C
  congr 1
  rw [Matrix.diag_apply, Matrix.mul_apply]
  refine Finset.sum_congr rfl fun s _ => ?_
  rw [Matrix.transpose_apply, sq]

/-- The weighted mean only reads data entries with nonzero weight: the
products at zero-weight entries are forced to 0 before summing. -/
theorem fitMean_congr {n d : ℕ} (X Xp W : Matrix (Fin n) (Fin d) ℝ)
    (h : ∀ i j, W i j ≠ 0 → X i j = Xp i j) :
    fitMean X (some W) = fitMean Xp (some W) := by
  funext j
  simp only [fitMean, Matrix.of_apply]
  congr 1
  refine Finset.sum_congr rfl fun i _ => ?_
  by_cases hw : W i j = 0
  · rw [if_pos hw, if_pos hw]
  · rw [if_neg hw, if_neg hw, h i j hw]

/-- Claim C10: with weights supplied, `mean_` is the per-feature weighted
mean `Σᵢ W[i,j]·X[i,j] / Σᵢ W[i,j]` with the products at zero-weight entries
forced to 0 before summing, so two data matrices agreeing wherever the weight
is nonzero get the same `mean_`; without weights, `mean_` is the ordinary
column mean. -/
theorem C10_weighted_mean_formula {n d : ℕ} (X Xp W : Matrix (Fin n) (Fin d) ℝ)
    (h : ∀ i j, W i j ≠ 0 → X i j = Xp i j) :
    (∀ j, fitMean X (some W) j
        = (∑ i, if W i j = 0 then 0 else X i j * W i j) / ∑ i, W i j)
    ∧ fitMean X (some W) = fitMean Xp (some W)
    ∧ (∀ j, fitMean X (none : Option (Matrix (Fin n) (Fin d) ℝ)) j
        = (∑ i, X i j) / n) :=
  ⟨fun _ => rfl, fitMean_congr X Xp W h, fun _ => rfl⟩

/-- Witness for C10 at concrete matrices differing only at the single
zero-weight entry. -/
theorem C10_weighted_mean_witness :
    (∀ i j, c10W i j ≠ 0 → c10X i j = c10Xp i j)
    ∧ fitMean c10X (some c10W) = fitMean c10Xp (some c10W) := by
  have h : ∀ i j, c10W i j ≠ 0 → c10X i j = c10Xp i j := by
    intro i j hw
    fin_cases i <;> fin_cases j <;> simp_all [c10W, c10X, c10Xp]
  exact ⟨h, (C10_weighted_mean_formula c10X c10Xp c10W h).2.1⟩

/-- The solver `solve_weighted` reads the observation vector only through the products
`w_j² · b_j`, so entries with zero weight are irrelevant. -/
theorem solve_weighted_congr {d k : ℕ} (A : Matrix (Fin d) (Fin k) ℝ)
    (b bp w : Fin d → ℝ) (h : ∀ j, w j ≠ 0 → b j = bp j) :
    solve_weighted A b w = solve_weighted A bp w := by
  unfold solve_weighted
  have hv : (fun j => w j ^ 2 * b j) = fun j => w j ^ 2 * bp j := by
    funext j
    by_cases hw : w j = 0
    · rw [hw]; ring_nf
    · rw [h j hw]
  rw [hv]

/-- The weighted E-step reads data entries only where the weight is
nonzero. -/
theorem _Estep_congr {n d k : ℕ} (data datap W : Matrix (Fin n) (Fin d) ℝ)
    (ev : Fin k → RVec d) (h : ∀ i j, W i j ≠ 0 → data i j = datap i j) :
    _Estep data (some W) ev = _Estep datap (some W) ev := by
  ext i t
  simp only [_Estep, Matrix.of_apply]
  exact congrFun
    (solve_weighted_congr (evMat ev)ᵀ (fun j => data i j) (fun j => datap i j)
      (fun j => W i j) (fun j hj => h i j hj)) t

/-- The weighted M-step row update reads data entries only through
`w² ⊙ d`, so entries with zero weight are irrelevant. -/
theorem mstepRow_congr {n d k : ℕ} (data datap W : Matrix (Fin n) (Fin d) ℝ)
    (coeff : Matrix (Fin n) (Fin k) ℝ) (ev : Fin k → RVec d) (i : Fin k)
    (h : ∀ s j, W s j ≠ 0 → data s j = datap s j) :
    mstepRow data (some W) coeff ev i = mstepRow datap (some W) coeff ev i := by
  have hnum : (Matrix.of fun s j => w2Of (some W) s j * deflate data coeff ev i s j)
      = Matrix.of fun s j => w2Of (some W) s j * deflate datap coeff ev i s j := by
    ext s j
    simp only [Matrix.of_apply, w2Of, deflate]
    by_cases hw : W s j = 0
    · rw [hw]; ring_nf
    · rw [h s j hw]
  funext j
  simp only [mstepRow]
  rw [hnum]

/-- The weighted M-step loop reads data entries only where the weight is
nonzero. -/
theorem mstepGo_congr {n d k : ℕ} (data datap W : Matrix (Fin n) (Fin d) ℝ)
    (ev0 : Fin k → RVec d) (coeff : Matrix (Fin n) (Fin k) ℝ)
    (h : ∀ s j, W s j ≠ 0 → data s j = datap s j) (m : ℕ) :
    mstepGo data (some W) ev0 coeff m = mstepGo datap (some W) ev0 coeff m := by
  induction m with
  | zero => rfl
  | succ i ih =>
    rw [mstepGo, mstepGo]
    by_cases hik : i < k
    · rw [dif_pos hik, dif_pos hik, ih,
        mstepRow_congr data datap W coeff (mstepGo datap (some W) ev0 coeff i) ⟨i, hik⟩ h]
    · rw [dif_neg hik, dif_neg hik, ih]

/-- Pointwise-equal self-maps have pointwise-equal iterates. -/
theorem iterCongr {A : Type} (f g : A → A) (x : A) (hstep : ∀ y, f y = g y)
    (t : ℕ) : f^[t] x = g^[t] x := by
  induction t with
  | zero => rfl
  | succ t ih =>
    rw [Function.iterate_succ_apply', Function.iterate_succ_apply', ih, hstep]

/-- One full E/M cycle reads data entries only where the weight is
nonzero. -/
theorem emStep_congr {n d k : ℕ} (data datap W : Matrix (Fin n) (Fin d) ℝ)
    (ev0 : Fin k → RVec d) (h : ∀ s j, W s j ≠ 0 → data s j = datap s j) :
    emStep data (some W) ev0 = emStep datap (some W) ev0 := by
  show _Mstep data (some W) ev0 (_Estep data (some W) ev0) = _
  rw [_Estep_congr data datap W ev0 h]
  exact mstepGo_congr data datap W ev0 _ h k

/-- The whole EM iteration reads data entries only where the weight is
nonzero: bases after any number of cycles coincide. -/
theorem emIter_congr {n d k : ℕ} (data datap W : Matrix (Fin n) (Fin d) ℝ)
    (ev0 : Fin k → RVec d) (h : ∀ s j, W s j ≠ 0 → data s j = datap s j)
    (t : ℕ) :
    (emStep data (some W))^[t] ev0 = (emStep datap (some W))^[t] ev0 :=
  iterCongr (emStep data (some W)) (emStep datap (some W)) ev0
    (fun ev => emStep_congr data datap W ev h) t

/-- Two data matrices agreeing at every nonzero-weight entry stay in
agreement (at those entries) after centering, because their weighted means
coincide. -/
theorem centered_congr {n d : ℕ} (X Xp W : Matrix (Fin n) (Fin d) ℝ)
    (h : ∀ i j, W i j ≠ 0 → X i j = Xp i j) :
    ∀ i j, W i j ≠ 0 → centered X (some W) i j = centered Xp (some W) i j := by
  intro i j hw
  show X i j - fitMean X (some W) j = Xp i j - fitMean Xp (some W) j
  rw [h i j hw, fitMean_congr X Xp W h]

/-- Claim C3: two data matrices that agree at every nonzero-weight entry and
differ arbitrarily at zero-weight entries produce, for the same weights,
component count and seed, identical fitted bases, identical transformed
coefficients, and identical reconstructions.  (Non-finite placeholder values
are modelled by arbitrary real values: in this embedding every real value is
equally "arbitrary" at a zero-weight slot.) -/
theorem C3_zero_weight_insensitive {n d : ℕ} (k maxIter seed : ℕ)
    (X Xp W : Matrix (Fin n) (Fin d) ℝ)
    (h : ∀ i j, W i j ≠ 0 → X i j = Xp i j) :
    (fit_transform X (some W) k maxIter seed).components_
        = (fit_transform Xp (some W) k maxIter seed).components_
    ∧ (fit_transform X (some W) k maxIter seed).coeff
        = (fit_transform Xp (some W) k maxIter seed).coeff
    ∧ reconstruct X (some W) (fit_transform X (some W) k maxIter seed).mean_
          (fit_transform X (some W) k maxIter seed).components_
        = reconstruct Xp (some W) (fit_transform Xp (some W) k maxIter seed).mean_
            (fit_transform Xp (some W) k maxIter seed).components_ := by
  have hc := centered_congr X Xp W h
  have hcomp : (fit_transform X (some W) k maxIter seed).components_
      = (fit_transform Xp (some W) k maxIter seed).components_ := by
    show (emStep (centered X (some W)) (some W))^[maxIter] (random_orthonormal k d seed)
        = (emStep (centered Xp (some W)) (some W))^[maxIter] (random_orthonormal k d seed)
    exact emIter_congr _ _ W _ hc maxIter
  have hmean : (fit_transform X (some W) k maxIter seed).mean_
      = (fit_transform Xp (some W) k maxIter seed).mean_ :=
    fitMean_congr X Xp W h
  have hco : (fit_transform X (some W) k maxIter seed).coeff
      = (fit_transform Xp (some W) k maxIter seed).coeff := by
    show _Estep (centered X (some W)) (some W)
        ((emStep (centered X (some W)) (some W))^[maxIter] (random_orthonormal k d seed))
      = _Estep (centered Xp (some W)) (some W)
        ((emStep (centered Xp (some W)) (some W))^[maxIter] (random_orthonormal k d seed))
    rw [emIter_congr _ _ W _ hc maxIter]
    exact _Estep_congr _ _ W _ hc
  refine ⟨hcomp, hco, ?_⟩
  have htrans : transform X (some W)
      (fit_transform Xp (some W) k maxIter seed).mean_
      (fit_transform Xp (some W) k maxIter seed).components_
      = transform Xp (some W)
          (fit_transform Xp (some W) k maxIter seed).mean_
          (fit_transform Xp (some W) k maxIter seed).components_ := by
    rw [transform, transform]
    refine _Estep_congr _ _ W _ fun i j hw => ?_
    show X i j - _ = Xp i j - _
    rw [h i j hw]
  rw [reconstruct, reconstruct, hmean, hcomp, htrans]

/-- Witness for C3 at concrete matrices differing only at the single
zero-weight entry. -/
theorem C3_zero_weight_witness :
    (∀ i j, c10W i j ≠ 0 → c10X i j = c10Xp i j)
    ∧ (fit_transform c10X (some c10W) 1 2 0).components_
        = (fit_transform c10Xp (some c10W) 1 2 0).components_
    ∧ (fit_transform c10X (some c10W) 1 2 0).coeff
        = (fit_transform c10Xp (some c10W) 1 2 0).coeff := by
  have h : ∀ i j, c10W i j ≠ 0 → c10X i j = c10Xp i j := by
    intro i j hw
    fin_cases i <;> fin_cases j <;> simp_all [c10W, c10X, c10Xp]
  obtain ⟨h1, h2, h3⟩ := C3_zero_weight_insensitive 1 2 0 c10X c10Xp c10W h
  exact ⟨h, h1, h2⟩

/-- Claim C5, amended: after an M-step whose pre-orthonormalization rows
(`mstepPenult`) are linearly independent, the basis rows are mutually
orthonormal; and unconditionally the invariant is restored incrementally —
after the row-`i` update the prefix `0..i` is re-orthonormalized before row
`i+1` is processed.  (The linear-independence proviso is forced by the
degenerate case exhibited in the counterexample: a zero coefficient column
produces a zero row that no orthonormalization pass can repair.) -/
theorem C5_orthonormal_amended {n d k : ℕ} (data : Matrix (Fin n) (Fin d) ℝ)
    (weights : Option (Matrix (Fin n) (Fin d) ℝ))
    (eigvec : Fin (k + 1) → RVec d) (coeff : Matrix (Fin n) (Fin (k + 1)) ℝ)
    (h : LinearIndependent ℝ (mstepPenult data weights eigvec coeff)) :
    Orthonormal ℝ (_Mstep data weights eigvec coeff)
    ∧ (∀ i : Fin (k + 1),
        mstepGo data weights eigvec coeff ((i : ℕ) + 1)
          = orthoUpTo
              (Function.update (mstepGo data weights eigvec coeff i) i
                (mstepRow data weights coeff
                  (mstepGo data weights eigvec coeff i) i))
              ((i : ℕ) + 1)) := by
  constructor
  · have hfin : _Mstep data weights eigvec coeff
        = fun t => gramSchmidtNormed ℝ (mstepPenult data weights eigvec coeff) t := by
      funext t
      show mstepGo data weights eigvec coeff (k + 1) t = _
      rw [mstepGo, dif_pos (Nat.lt_succ_self k)]
      show orthoUpTo (mstepPenult data weights eigvec coeff) (k + 1) t = _
      simp only [orthoUpTo]
      rw [if_pos t.isLt]
    rw [hfin]
    exact gramSchmidt_orthonormal h
  · intro i
    rw [mstepGo, dif_pos i.isLt]

/-- Claim C5, counterexample: with an all-zero coefficient column, the
M-step row update divides 0 by 0 (NaN in the floating-point source, 0 in
this real-number embedding), the resulting row is zero, Gram-Schmidt leaves
it zero, and the basis after the M-step is not orthonormal — the claim's
unconditional orthonormality invariant fails. -/
theorem C5_orthonormal_counterexample :
    ¬ Orthonormal ℝ (_Mstep cexData none cexEv (0 : Matrix (Fin 1) (Fin 1) ℝ)) := by
  intro hON
  have hms : mstepRow cexData none (0 : Matrix (Fin 1) (Fin 1) ℝ)
      (mstepGo cexData none cexEv (0 : Matrix (Fin 1) (Fin 1) ℝ) 0)
      ⟨0, Nat.lt_succ_self 0⟩ = (0 : RVec 1) := by
    funext j
    simp [mstepRow, colMat, Matrix.mul_apply, Matrix.zero_apply]
  have hrow : _Mstep cexData none cexEv (0 : Matrix (Fin 1) (Fin 1) ℝ) 0 = 0 := by
    show mstepGo cexData none cexEv (0 : Matrix (Fin 1) (Fin 1) ℝ) (0 + 1) 0 = 0
    rw [mstepGo, dif_pos (Nat.lt_succ_self 0), hms]
    show orthoUpTo (Function.update cexEv ⟨0, Nat.lt_succ_self 0⟩ (0 : RVec 1)) 1 0 = 0
    simp only [orthoUpTo]
    rw [if_pos (by norm_num : (((0 : Fin 1) : ℕ)) < 1)]
    have hfam : Function.update cexEv ⟨0, Nat.lt_succ_self 0⟩ (0 : RVec 1)
        = fun _ => (0 : RVec 1) := by
      funext t
      rw [Fin.ext (show (t : ℕ) = ((⟨0, Nat.lt_succ_self 0⟩ : Fin 1) : ℕ) by
        have := t.isLt; omega)]
      rw [Function.update_same]
    rw [hfam]
    rw [gramSchmidtNormed, gramSchmidt_def]
    simp
  have h1 := hON.1 0
  rw [hrow] at h1
  simp at h1

/-- Witness for the amended C5: a nondegenerate 1×1 M-step whose single
pre-orthonormalization row is the nonzero vector `(2)`, hence linearly
independent, and the basis after the M-step is orthonormal. -/
theorem C5_orthonormal_witness :
    LinearIndependent ℝ (mstepPenult cexData2 none cexEv cexCoeffOne)
    ∧ Orthonormal ℝ (_Mstep cexData2 none cexEv cexCoeffOne) := by
  have hrow : mstepRow cexData2 none cexCoeffOne
      (mstepGo cexData2 none cexEv cexCoeffOne 0) (Fin.last 0)
      = (fun _ => 2 : RVec 1) := by
    funext j
    simp [mstepRow, colMat, Matrix.mul_apply, w2Of, deflate, cexData2,
      cexCoeffOne, cexEv]
  have hpen : mstepPenult cexData2 none cexEv cexCoeffOne
      = fun _ => (fun _ => 2 : RVec 1) := by
    funext t
    rw [Fin.ext (show (t : ℕ) = ((Fin.last 0 : Fin 1) : ℕ) by
      have := t.isLt; omega)]
    show Function.update (mstepGo cexData2 none cexEv cexCoeffOne 0) (Fin.last 0)
        (mstepRow cexData2 none cexCoeffOne
          (mstepGo cexData2 none cexEv cexCoeffOne 0) (Fin.last 0)) (Fin.last 0) = _
    rw [Function.update_same, hrow]
  have hli : LinearIndependent ℝ (mstepPenult cexData2 none cexEv cexCoeffOne) := by
    rw [hpen]
    show LinearIndependent ℝ (fun _ : Fin 1 => (fun _ => 2 : RVec 1))
    refine linearIndependent_unique _ ?_
    intro hz
    have h0 := congrFun hz 0
    norm_num at h0
  exact ⟨hli, (C5_orthonormal_amended cexData2 none cexEv cexCoeffOne hli).1⟩

/-- Claim C8, amended: with uniform weights the transform/inverse_transform
round trip `mean_ + (X - mean_) Eᵀ E` is exactly the identity whenever the
fitted basis is square (`k = n_features`) with orthonormal rows
(`E Eᵀ = 1`); with `n_samples < n_features` the round trip is the orthogonal
projection onto the span of the basis rows and need not return `X` (see the
counterexample). -/
theorem C8_roundtrip_amended {n d : ℕ} (X : Matrix (Fin n) (Fin d) ℝ)
    (mean : Fin d → ℝ) (E : Fin d → RVec d)
    (h : evMat E * (evMat E)ᵀ = 1) :
    reconstruct X none mean E = X := by
  have hEtE : (evMat E)ᵀ * evMat E = 1 := Matrix.mul_eq_one_comm.mp h
  ext i j
  show mean j
      + ((Matrix.of fun i j => X i j - mean j) * (evMat E)ᵀ * evMat E) i j
    = X i j
  rw [Matrix.mul_assoc, hEtE, Matrix.mul_one]
  show mean j + (X i j - mean j) = X i j
  ring

/-- Witness for the amended C8: the 1×1 orthonormal basis `(1)` and a
concrete data matrix round-trip exactly. -/
theorem C8_roundtrip_witness :
    evMat cexEv * (evMat cexEv)ᵀ = 1
    ∧ reconstruct cexData2 none (fun _ => 5) cexEv = cexData2 := by
  have h : evMat cexEv * (evMat cexEv)ᵀ = 1 := by
    ext a b
    rw [Matrix.mul_apply]
    fin_cases a
    fin_cases b
    simp [evMat, cexEv, Matrix.one_apply]
  exact ⟨h, C8_roundtrip_amended cexData2 (fun _ => 5) cexEv h⟩

/-- Claim C8, counterexample: for the 2×3 matrix `c8X` fitted with
`k = min(n_samples, n_features) = 2` components, uniform weights and a
legal iteration budget (`max_iter = 0`), the round trip is the projection
onto the fitted basis rows and differs from `X` at entry (0, 2) — so the
claim's unconditional full-rank round-trip identity fails when
`n_samples < n_features`. -/
theorem C8_roundtrip_counterexample :
    reconstruct c8X none (fit_transform c8X none 2 0 0).mean_
        (fit_transform c8X none 2 0 0).components_ ≠ c8X := by
  intro hEq
  have hentry : reconstruct c8X none (fit_transform c8X none 2 0 0).mean_
      (fit_transform c8X none 2 0 0).components_ 0 2 = 1 := by
    show fitMean c8X none 2
        + (transform c8X none (fitMean c8X none) (random_orthonormal 2 3 0)
            * evMat (random_orthonormal 2 3 0)) 0 2 = 1
    rw [Matrix.mul_apply, Fin.sum_univ_two]
    have hE0 : evMat (random_orthonormal 2 3 0) 0 2 = 0 := by
      simp [evMat, random_orthonormal]
    have hE1 : evMat (random_orthonormal 2 3 0) 1 2 = 0 := by
      simp [evMat, random_orthonormal]
    rw [hE0, hE1, mul_zero, mul_zero, add_zero]
    show (∑ i, c8X i 2) / ((2 : ℕ) : ℝ) + 0 = 1
    rw [Fin.sum_univ_two]
    norm_num [c8X]
  have h02 := congrFun (congrFun hEq 0) 2
  rw [hentry] at h02
  simp [c8X] at h02

/-- Claim C2, amended: the module-level `empca` validates both conditions by
`assert` before any state is produced or any iteration runs — a shape
mismatch or a component count exceeding the feature count yields the
corresponding validation error for every iteration budget.  The `EMPCA`
class performs no such explicit validation: a component count exceeding the
feature count does fail before any EM iteration (inside basis
initialization, per spec section 4.1), but only after `self.mean_` has
already been assigned, so partial state is produced. -/
theorem C2_validation_amended (data weights : List (List ℚ))
    (nvec niter seed : ℕ) (X : List (List ℚ)) (k m s : ℕ)
    (h1 : shape2 data ≠ shape2 weights ∨ (shape2 data).2 < nvec)
    (h2 : (shape2 X).2 < k) :
    empcaChecked data weights nvec niter seed
        = .error (if shape2 data ≠ shape2 weights then .shapeMismatch
            else .dimensionError)
    ∧ (fitTransformTraced X k m s).1 = some (meanColsQ X)
    ∧ (fitTransformTraced X k m s).2 = .error .dimensionError := by
  refine ⟨?_, ?_, ?_⟩
  · by_cases hsh : shape2 data ≠ shape2 weights
    · simp only [empcaChecked]
      rw [if_pos hsh, if_pos hsh]
    · have hnv : (shape2 data).2 < nvec := h1.resolve_left hsh
      simp only [empcaChecked]
      rw [if_neg hsh, if_pos (not_le.mpr hnv), if_neg hsh]
  · simp only [fitTransformTraced]
    rw [if_neg (not_le.mpr h2)]
  · simp only [fitTransformTraced]
    rw [if_neg (not_le.mpr h2)]

/-- Witness for the amended C2 at concrete inputs: a 2×1/1×1 shape mismatch
for the module-level engine, and a 1-feature matrix fitted with 2 components
for the class trace. -/
theorem C2_validation_witness :
    ((shape2 [[(1 : ℚ)], [2]] ≠ shape2 [[(1 : ℚ)]]
        ∨ (shape2 [[(1 : ℚ)], [2]]).2 < 1)
      ∧ (shape2 [[(1 : ℚ)]]).2 < 2)
    ∧ empcaChecked [[(1 : ℚ)], [2]] [[(1 : ℚ)]] 1 5 0
        = .error (if shape2 [[(1 : ℚ)], [2]] ≠ shape2 [[(1 : ℚ)]]
            then .shapeMismatch else .dimensionError)
    ∧ (fitTransformTraced [[(1 : ℚ)]] 2 3 0).1 = some (meanColsQ [[(1 : ℚ)]])
    ∧ (fitTransformTraced [[(1 : ℚ)]] 2 3 0).2 = .error .dimensionError := by
  have h1 : shape2 [[(1 : ℚ)], [2]] ≠ shape2 [[(1 : ℚ)]]
      ∨ (shape2 [[(1 : ℚ)], [2]]).2 < 1 := Or.inl (by decide)
  have h2 : (shape2 [[(1 : ℚ)]]).2 < 2 := by decide
  obtain ⟨a, b, c⟩ :=
    C2_validation_amended [[(1 : ℚ)], [2]] [[(1 : ℚ)]] 1 5 0 [[(1 : ℚ)]] 2 3 0 h1 h2
  exact ⟨⟨h1, h2⟩, a, b, c⟩

/-- Claim C2, counterexample: a fit call of the `EMPCA` class with the
component count (2) exceeding the feature count (1) does fail before any EM
iteration, but the claim's "no partial state produced" is false — the
estimator's `mean_` attribute has already been assigned when the failure
occurs, because `self.mean_ = X.mean(0)` (line 57) runs before the basis
initializer checks `k ≤ n_features`. -/
theorem C2_validation_counterexample :
    (fitTransformTraced [[(1 : ℚ)], [3]] 2 100 0).2 = .error .dimensionError
    ∧ (fitTransformTraced [[(1 : ℚ)], [3]] 2 100 0).1 ≠ none := by
  constructor
  · rfl
  · show some (meanColsQ [[(1 : ℚ)], [3]]) ≠ none
    exact Option.some_ne_none _

end

end Wpca
